import Mathlib

/-!
Verification of the DAG-planning core of `dag_generator.py` (Full MC
Production pipeline).  The Python module is shallowly embedded: the mutable
`self.dag_lines` list is threaded explicitly (`acc` parameters), Python
exceptions (`KeyError`, `IndexError`, `ValueError`) become `Except` results,
and the external storage probe (`voms-proxy-info`, `xrdfs`) is abstracted as
Boolean / counting parameters, exactly as observed by the planner.

Python `str(i)` for a natural number is modelled by `natStr` (decimal
rendering with a structural fuel so that the kernel can evaluate it).
Python's `list(set(xs))` has implementation-defined iteration order; it is
modelled as first-occurrence deduplication (`dedupFirst`).  Floating point
pT thresholds are never computed with, only interpolated into VARS strings,
so they are carried as their literal decimal renderings.
-/

namespace MCProd

/-! ## Decimal rendering of naturals (model of Python `str(int)`) -/

def digitChar : Nat → Char
  | 0 => '0' | 1 => '1' | 2 => '2' | 3 => '3' | 4 => '4'
  | 5 => '5' | 6 => '6' | 7 => '7' | 8 => '8' | 9 => '9'
  | _ => '*'

def digitVal (c : Char) : Nat := c.toNat - 48

/-- Fuel-driven most-significant-first decimal digits; fuel is always
called with `n + 1 ≤ fuel` so the `0` case is unreachable. -/
def natDigits : Nat → Nat → List Char
  | 0, _ => []
  | fuel + 1, n =>
    if n < 10 then [digitChar n]
    else natDigits fuel (n / 10) ++ [digitChar (n % 10)]

def natStr (n : Nat) : String := ⟨natDigits (n + 1) n⟩

def decodeDigits (l : List Char) : Nat :=
  l.foldl (fun a c => a * 10 + digitVal c) 0

/-! ## Association-list lookup (model of Python dict read) and
first-occurrence deduplication (model of `list(set(...))`). -/

def dictGet {β : Type} : List (String × β) → String → Option β
  | [], _ => none
  | (k, v) :: rest, q => if k = q then some v else dictGet rest q

def dedupFirstAux (seen : List String) : List String → List String
  | [] => []
  | x :: xs =>
    if x ∈ seen then dedupFirstAux seen xs
    else x :: dedupFirstAux (x :: seen) xs

def dedupFirst (l : List String) : List String := dedupFirstAux [] l

/-! ## Data model (from `dag_generator.py`)

`LHEPool.__init__` and `Campaign.__init__`.  The pT thresholds are floats in
Python but are never computed with — only interpolated into a VARS string —
so they are carried as their literal renderings. -/

structure LHEPool where
  name : String
  process : String
  description : String
  output_pattern : String
  min_pt_conia : String
  min_pt_bonia : String
  min_pt_q : String
  eos_path : Option String
deriving DecidableEq, Repr

structure Campaign where
  name : String
  analysis_type : String
  inputs : List String
  modes : List String
  description : String
  deprecated : Bool
deriving DecidableEq, Repr

/-- Derived attribute `self.n_sources = len(inputs)` set by `Campaign.__init__`. -/
def Campaign.n_sources (c : Campaign) : Nat := c.inputs.length

/-- `Campaign.__init__`: assigns the attributes and raises
`ValueError("...: modes count must match inputs count")` when
`len(modes) != len(inputs)`. -/
def mkCampaign (name analysis_type : String) (inputs modes : List String)
    (description : String) (deprecated : Bool) : Except String Campaign :=
  if modes.length ≠ inputs.length then
    .error ("Campaign " ++ name ++ ": modes count must match inputs count")
  else
    .ok ⟨name, analysis_type, inputs, modes, description, deprecated⟩

/-- The pool catalog `LHE_POOLS` (a Python dict), with the runtime
patching of `eos_path` by probe results folded into the value; the planner
reads it only through `dictGet`. -/
def Catalog : Type := List (String × LHEPool)

def findPool (cat : Catalog) (p : String) : Option LHEPool := dictGet cat p

/-! ## Storage probe (`scan_existing_pools`)

`check_proxy_valid` and `count_lhe_files_on_t2` wrap external subprocess
calls; the planner observes only a Boolean and, per pool, a file count
(errors already folded to 0 inside `count_lhe_files_on_t2`), so they enter
the model as parameters. -/

def EOS_BASE : String :=
  "root://cceos.ihep.ac.cn//eos/ihep/cms/store/user/xcheng/MC_Production_v2"

def poolEosLocation (p : String) : String := EOS_BASE ++ "/lhe_pools/" ++ p

/-- `scan_existing_pools(required_pools, min_files)`: empty dict when the
proxy check fails; otherwise a dict of the pools whose remote count reaches
the threshold, each mapped to its EOS location.  The Python dict is
modelled as an association list; a name occurring twice in the input would
collapse to one dict entry in Python, with the same key and value as here
(callers pass deduplicated pool sets). -/
def scan_existing_pools (proxy_valid : Bool) (remote_count : String → Nat)
    (required_pools : List String) (min_files : Nat) : List (String × String) :=
  if ¬ proxy_valid then []
  else required_pools.filterMap (fun p =>
    if min_files ≤ remote_count p then some (p, poolEosLocation p) else none)

/-! ## Job names and DAG directives

Python builds job names by f-string concatenation (`LHE_{pool}_{i}`,
`PROC_{campaign}_{id}`); the graph is modelled with structured names plus
the exact rendering function, proved injective below so the structured view
is faithful to the emitted text. -/

inductive JobName where
  | lhe (pool : String) (idx : Nat)
  | proc (campaign : String) (jobId : Nat)
deriving DecidableEq, Repr

def renderName : JobName → String
  | .lhe p i => "LHE_" ++ p ++ "_" ++ natStr i
  | .proc c j => "PROC_" ++ c ++ "_" ++ natStr j

/-- One positional LHE input of a processing job: `EOS:pool:job:usage`
for a pre-staged pool, `GEN:pool:idx` for a generated unit. -/
inductive FileRef where
  | eos (pool : String) (jobId usageIdx : Nat)
  | gen (pool : String) (idx : Nat)
deriving DecidableEq, Repr

/-- One entry of `self.dag_lines`.  Comment text is kept verbatim (modulo
the cosmetic leading newline Python embeds in some comments). -/
inductive DagLine where
  | comment (text : String)
  | blank
  | config (file : String)
  | job (name : JobName) (template : String)
  | vars_gen (name : JobName) (pool : String) (seed : Nat)
      (process conia bonia q : String)
  | vars_proc (name : JobName) (campaign : String) (jobId : Nat)
      (inputs : List FileRef) (modes : List String)
      (analysis : String) (nSources : Nat)
  | retry (name : JobName) (count : Nat)
  | parent (parents : List JobName) (child : JobName)
  | finalNode (name template : String)
deriving DecidableEq, Repr

/-- Python `KeyError` / `IndexError` raised during planning. -/
inductive PlanError where
  | unknownPool (name : String)
  | indexError (pool : String) (idx : Nat)
deriving DecidableEq, Repr

/-! ## The planner (`DAGGenerator`)

`self.dag_lines` is the only state the planner methods touch (`job_counter`
and `sub_files` are written once and never read); it is threaded as the
`acc` parameters below.  Loops become recursions over the iterated list. -/

def lheGenTemplate : String := "processing/templates/lhe_gen.sub"
def processingTemplate : String := "processing/templates/processing.sub"
def summaryTemplate : String := "processing/templates/summary.sub"

/-- `generate_seed_list(n_jobs, start_seed)` = `list(range(start, start+n))`. -/
def generate_seed_list (n_jobs start_seed : Nat) : List Nat :=
  List.range' start_seed n_jobs

/-- Python `enumerate`, starting at index `i`. -/
def enumerate {α : Type} (i : Nat) : List α → List (Nat × α)
  | [] => []
  | x :: xs => (i, x) :: enumerate (i + 1) xs

/-- The `for i, seed in enumerate(seeds)` loop of `add_lhe_generation_jobs`:
per seed it appends JOB / VARS / RETRY 3 lines and records the job name. -/
def lhe_gen_loop (pool : LHEPool) : List (Nat × Nat) → List DagLine × List JobName
  | [] => ([], [])
  | (i, seed) :: rest =>
    let nm := JobName.lhe pool.name i
    let r := lhe_gen_loop pool rest
    (DagLine.job nm lheGenTemplate ::
       DagLine.vars_gen nm pool.name seed pool.process
         pool.min_pt_conia pool.min_pt_bonia pool.min_pt_q ::
       DagLine.retry nm 3 :: r.1,
     nm :: r.2)

/-- `add_lhe_generation_jobs(pool, n_jobs)`: skips entirely when the pool
has an `eos_path`; otherwise defaults `seeds = generate_seed_list(n_jobs)`
(start 100) and runs the loop. -/
def add_lhe_generation_jobs (pool : LHEPool) (n_jobs : Nat) :
    List DagLine × List JobName :=
  if pool.eos_path.isSome then ([], [])
  else lhe_gen_loop pool (enumerate 0 (generate_seed_list n_jobs 100))

/-- `lhe_job_idx = job_id * campaign.inputs.count(pool_name) + usage_idx`
(line 482 of the source). -/
def lheJobIdx (inputs : List String) (p : String) (jobId usageIdx : Nat) : Nat :=
  jobId * inputs.count p + usageIdx

/-- `add_processing_job`: JOB / VARS / RETRY 2 lines plus, when
`parent_jobs` is nonempty, one PARENT line. -/
def add_processing_job (c : Campaign) (jobId : Nat) (files : List FileRef)
    (parents : List JobName) : List DagLine × JobName :=
  let nm := JobName.proc c.name jobId
  ([DagLine.job nm processingTemplate,
    DagLine.vars_proc nm c.name jobId files c.modes c.analysis_type c.n_sources,
    DagLine.retry nm 2] ++
     (if parents.isEmpty then [] else [DagLine.parent parents nm]),
   nm)

/-- The `for i, pool_name in enumerate(campaign.inputs)` loop of stage 2 of
`generate_campaign_dag`: builds `lhe_files` and `parent_jobs` for one
processing job, tracking `pool_usage_counter` (the Python dict becomes the
function `cnt`).  `LHE_POOLS[...]`, `pool_lhe_jobs[...]` and the list index
raise `KeyError` / `IndexError`, modelled as `Except` errors. -/
def collect_lhe_refs (cat : Catalog) (poolJobs : List (String × List JobName))
    (full : List String) (jobId : Nat) :
    List String → (String → Nat) → Except PlanError (List FileRef × List JobName)
  | [], _ => .ok ([], [])
  | p :: rest, cnt =>
    match findPool cat p with
    | none => .error (.unknownPool p)
    | some pool =>
      let u := cnt p
      let cnt' := fun q => if q = p then cnt q + 1 else cnt q
      if pool.eos_path.isSome then
        match collect_lhe_refs cat poolJobs full jobId rest cnt' with
        | .error e => .error e
        | .ok r => .ok (.eos p jobId u :: r.1, r.2)
      else
        let idx := lheJobIdx full p jobId u
        match dictGet poolJobs p with
        | none => .error (.unknownPool p)
        | some names =>
          match names[idx]? with
          | none => .error (.indexError p idx)
          | some nm =>
            match collect_lhe_refs cat poolJobs full jobId rest cnt' with
            | .error e => .error e
            | .ok r => .ok (.gen p idx :: r.1, nm :: r.2)

/-- The `for job_id in range(n_jobs)` loop of stage 2. -/
def proc_jobs_loop (cat : Catalog) (poolJobs : List (String × List JobName))
    (c : Campaign) :
    List Nat → List DagLine → List DagLine × Except PlanError (List JobName)
  | [], acc => (acc, .ok [])
  | j :: rest, acc =>
    match collect_lhe_refs cat poolJobs c.inputs j c.inputs (fun _ => 0) with
    | .error e => (acc, .error e)
    | .ok fp =>
      let r := add_processing_job c j fp.1 fp.2
      let t := proc_jobs_loop cat poolJobs c rest (acc ++ r.1)
      match t.2 with
      | .ok nms => (t.1, .ok (r.2 :: nms))
      | .error e => (t.1, .error e)

/-- Stage 1 of `generate_campaign_dag`: one pass over the distinct pools,
generating LHE jobs sized to `n_jobs * usage_count` unless the pool is
pre-staged and `use_existing_lhe` holds. -/
def gen_stage (cat : Catalog) (use_existing : Bool) (inputs : List String)
    (n_jobs : Nat) :
    List String → List DagLine →
      List DagLine × Except PlanError (List (String × List JobName))
  | [], acc => (acc, .ok [])
  | p :: rest, acc =>
    match findPool cat p with
    | none => (acc, .error (.unknownPool p))
    | some pool =>
      let pr :=
        if use_existing && pool.eos_path.isSome then ([], [])
        else add_lhe_generation_jobs pool (n_jobs * inputs.count p)
      let t := gen_stage cat use_existing inputs n_jobs rest (acc ++ pr.1)
      match t.2 with
      | .ok m => (t.1, .ok ((p, pr.2) :: m))
      | .error e => (t.1, .error e)

/-- A row of n equals signs, as in the Python comment banners. -/
def eqRow (n : Nat) : String := String.mk (List.replicate n '=')

def eqRow44 : String := eqRow 44

def campaign_header (c : Campaign) : List DagLine :=
  [DagLine.comment eqRow44,
   DagLine.comment ("Campaign: " ++ c.name),
   DagLine.comment ("Description: " ++ c.description)] ++
  (if c.deprecated then [DagLine.comment "*** DEPRECATED ***"] else []) ++
  [DagLine.comment eqRow44]

/-- `generate_campaign_dag(campaign, n_jobs, use_existing_lhe)`. -/
def generate_campaign_dag (cat : Catalog) (c : Campaign) (n_jobs : Nat)
    (use_existing_lhe : Bool) (acc : List DagLine) :
    List DagLine × Except PlanError (List JobName) :=
  let g := gen_stage cat use_existing_lhe c.inputs n_jobs (dedupFirst c.inputs)
    (acc ++ campaign_header c)
  match g.2 with
  | .error e => (g.1, .error e)
  | .ok poolJobs => proc_jobs_loop cat poolJobs c (List.range n_jobs) g.1

def eqRow70 : String := eqRow 70

def full_dag_header (names : List String) (n_jobs : Nat) (now : String) :
    List DagLine :=
  [DagLine.comment eqRow70,
   DagLine.comment "Full MC Production DAG",
   DagLine.comment ("Generated: " ++ now),
   DagLine.comment ("Campaigns: " ++ String.intercalate ", " names),
   DagLine.comment ("Jobs per campaign: " ++ natStr n_jobs),
   DagLine.comment eqRow70,
   DagLine.blank,
   DagLine.comment "DAG Configuration",
   DagLine.config "dagman.config",
   DagLine.blank]

def summary_block : List DagLine :=
  [DagLine.comment eqRow44,
   DagLine.comment "Final Summary Node",
   DagLine.comment eqRow44,
   DagLine.finalNode "SUMMARY" summaryTemplate]

/-- The per-campaign loop of `generate_full_dag`: unknown campaign names
are skipped with a warning; the FINAL summary node is appended only when
`all_jobs` is nonempty. -/
def full_dag_loop (cat : Catalog) (campaigns : List (String × Campaign))
    (n_jobs : Nat) :
    List String → List DagLine → List JobName →
      List DagLine × Except PlanError (List JobName)
  | [], acc, allJobs =>
    (if allJobs.isEmpty then acc else acc ++ summary_block, .ok allJobs)
  | nm :: rest, acc, allJobs =>
    match dictGet campaigns nm with
    | none => full_dag_loop cat campaigns n_jobs rest acc allJobs
    | some c =>
      let r := generate_campaign_dag cat c n_jobs true acc
      match r.2 with
      | .error e => (r.1, .error e)
      | .ok jobs => full_dag_loop cat campaigns n_jobs rest r.1 (allJobs ++ jobs)

/-- `generate_full_dag(campaigns, n_jobs)`; `self.dag_lines` is reset to the
header first, and `datetime.now().isoformat()` enters as the `now`
parameter. -/
def generate_full_dag (cat : Catalog) (campaigns : List (String × Campaign))
    (names : List String) (n_jobs : Nat) (now : String) :
    List DagLine × Except PlanError (List JobName) :=
  full_dag_loop cat campaigns n_jobs names (full_dag_header names n_jobs now) []

/-- Comment lines carry no graph content; `graph_lines` strips them,
keeping every JOB / VARS / RETRY / PARENT / CONFIG / FINAL directive. -/
def isComment : DagLine → Bool
  | .comment _ => true
  | _ => false

def graph_lines (ls : List DagLine) : List DagLine :=
  ls.filter (fun l => !(isComment l))

/-! ## Derived forms used to state and prove the claims

These are not additional embedding; they are closed-form descriptions of
what the planner's loops compute, proved equal to the embedding below.
`refs_spec_loop` and `parents_spec_loop` spell out the claimed per-position
behaviour: position `i` holding pool `q` is occurrence
`u = count of q in the first i inputs`, consuming `EOS:q:job:u` when `q` is
pre-staged and generated unit `lheJobIdx full q job u` (with an edge to the
generation job of that unit) otherwise. -/

/-- The pool `q` resolves in the catalog and its record carries the same
name as its key (true of `LHE_POOLS`, which the planner relies on). -/
def pool_ok (cat : Catalog) (q : String) : Bool :=
  match findPool cat q with
  | some pool => pool.name == q
  | none => false

def pool_gen_entry (cat : Catalog) (inputs : List String) (n_jobs : Nat)
    (q : String) : List DagLine × List JobName :=
  match findPool cat q with
  | some pool =>
    if pool.eos_path.isSome then ([], [])
    else add_lhe_generation_jobs pool (n_jobs * inputs.count q)
  | none => ([], [])

def gen_stage_lines_spec (cat : Catalog) (inputs : List String) (n_jobs : Nat) :
    List String → List DagLine
  | [] => []
  | q :: rest =>
    (pool_gen_entry cat inputs n_jobs q).1 ++
      gen_stage_lines_spec cat inputs n_jobs rest

def refs_spec_loop (cat : Catalog) (full : List String) (jobId : Nat) :
    List String → Nat → List FileRef
  | [], _ => []
  | q :: rest, k =>
    (match findPool cat q with
     | some pool =>
       if pool.eos_path.isSome then
         FileRef.eos q jobId ((full.take k).count q)
       else
         FileRef.gen q (lheJobIdx full q jobId ((full.take k).count q))
     | none => FileRef.eos q jobId ((full.take k).count q)) ::
      refs_spec_loop cat full jobId rest (k + 1)

def refs_spec (cat : Catalog) (full : List String) (jobId : Nat) :
    List FileRef :=
  refs_spec_loop cat full jobId full 0

def parents_spec_loop (cat : Catalog) (full : List String) (jobId : Nat) :
    List String → Nat → List JobName
  | [], _ => []
  | q :: rest, k =>
    match findPool cat q with
    | some pool =>
      if pool.eos_path.isSome then parents_spec_loop cat full jobId rest (k + 1)
      else
        JobName.lhe q (lheJobIdx full q jobId ((full.take k).count q)) ::
          parents_spec_loop cat full jobId rest (k + 1)
    | none => parents_spec_loop cat full jobId rest (k + 1)

def parents_spec (cat : Catalog) (full : List String) (jobId : Nat) :
    List JobName :=
  parents_spec_loop cat full jobId full 0

def proc_lines_spec (cat : Catalog) (c : Campaign) : List Nat → List DagLine
  | [] => []
  | j :: rest =>
    (add_processing_job c j (refs_spec cat c.inputs j)
        (parents_spec cat c.inputs j)).1 ++ proc_lines_spec cat c rest

def campaign_lines_spec (cat : Catalog) (c : Campaign) (n_jobs : Nat) :
    List DagLine :=
  campaign_header c ++
    gen_stage_lines_spec cat c.inputs n_jobs (dedupFirst c.inputs) ++
    proc_lines_spec cat c (List.range n_jobs)

/-! ## Classifiers over emitted directives -/

def isGenJobFor (p : String) : DagLine → Bool
  | .job (.lhe q _) _ => q == p
  | _ => false

def isProcJobLine : DagLine → Bool
  | .job (.proc _ _) _ => true
  | _ => false

def isJobDirective : DagLine → Bool
  | .job _ _ => true
  | _ => false

def isFinalDirective : DagLine → Bool
  | .finalNode _ _ => true
  | _ => false

def isParentLine : DagLine → Bool
  | .parent _ _ => true
  | _ => false

def jobNameOf : DagLine → Option JobName
  | .job nm _ => some nm
  | _ => none

/-- The declared job names of a document, in declaration order. -/
def job_names (ls : List DagLine) : List JobName := ls.filterMap jobNameOf

/-! ## The concrete registries `LHE_POOLS` and `CAMPAIGNS` -/

def mkPool (name process description conia bonia q : String)
    (eos : Option String) : LHEPool :=
  { name := name, process := process, description := description,
    output_pattern := "sample_{name}_{seed}.lhe",
    min_pt_conia := conia, min_pt_bonia := bonia, min_pt_q := q,
    eos_path := eos }

def LHE_POOLS : Catalog :=
  [("pool_jpsi_CSCO_g",
    mkPool "pool_jpsi_CSCO_g" "define jpsi_all; g g > jpsi_all g"
      "gg -> J/psi(CS+CO) + g (3S11+3S18+1S08)" "6.0" "4.0" "4.0"
      (some (poolEosLocation "pool_jpsi_CSCO_g"))),
   ("pool_upsilon_CSCO_g",
    mkPool "pool_upsilon_CSCO_g" "define upsilon_all; g g > upsilon_all g"
      "gg -> Upsilon(CS+CO) + g (3S11+3S18+1S08)" "6.0" "4.0" "4.0"
      (some (poolEosLocation "pool_upsilon_CSCO_g"))),
   ("pool_jpsi_upsilon_CSCO",
    mkPool "pool_jpsi_upsilon_CSCO" "g g > cc~(3S11) bb~(3S11)"
      "gg -> J/psi + Upsilon (Color Singlet)" "6.0" "4.0" "4.0"
      (some (poolEosLocation "pool_jpsi_upsilon_CSCO"))),
   ("pool_gg",
    mkPool "pool_gg" "g g > g g" "gg -> gg (QCD dijet)" "6.0" "4.0" "4.0"
      (some (poolEosLocation "pool_gg"))),
   ("pool_2jpsi",
    mkPool "pool_2jpsi" "g g > cc~(3S11) cc~(3S11)"
      "gg -> 2J/psi (Color Singlet, no extra gluon)" "6.0" "4.0" "4.0"
      (some (poolEosLocation "pool_2jpsi"))),
   ("pool_2jpsi_g",
    mkPool "pool_2jpsi_g" "g g > cc~(3S11) cc~(3S11) g"
      "gg -> 2J/psi + g (Color Singlet SPS for JJP)" "6.0" "4.0" "4.0"
      (some (poolEosLocation "pool_2jpsi_g")))]

def CAMPAIGNS : List (String × Campaign) :=
  [("JJP_SPS",
    ⟨"JJP_SPS", "JJP", ["pool_2jpsi_g"], ["phi"],
     "JJP SPS: gg -> 2J/psi + g with forced Phi shower", false⟩),
   ("JJP_DPS1",
    ⟨"JJP_DPS1", "JJP", ["pool_jpsi_CSCO_g", "pool_jpsi_CSCO_g"],
     ["normal", "phi"],
     "JJP DPS Type-1: Two J/psi(CS+CO)+g events mixed (normal + phi)", false⟩),
   ("JJP_DPS2",
    ⟨"JJP_DPS2", "JJP", ["pool_2jpsi", "pool_gg"], ["normal", "phi"],
     "JJP DPS Type-2: 2J/psi mixed with gg->gg (normal + phi)", false⟩),
   ("JJP_TPS",
    ⟨"JJP_TPS", "JJP", ["pool_jpsi_CSCO_g", "pool_jpsi_CSCO_g", "pool_gg"],
     ["normal", "normal", "phi"],
     "JJP TPS: Three parton scattering (normal + normal + phi)", false⟩),
   ("JUP_SPS",
    ⟨"JUP_SPS", "JUP", ["pool_jpsi_upsilon_CSCO"], ["phi"],
     "[DEPRECATED] JUP SPS: J/psi + Upsilon with forced Phi shower", true⟩),
   ("JUP_DPS1",
    ⟨"JUP_DPS1", "JUP", ["pool_jpsi_CSCO_g", "pool_upsilon_CSCO_g"],
     ["phi", "normal"],
     "JUP DPS Type-1: J/psi(CS+CO)+g (phi) + Upsilon(CS+CO)+g (normal)", false⟩),
   ("JUP_DPS2",
    ⟨"JUP_DPS2", "JUP", ["pool_jpsi_CSCO_g", "pool_upsilon_CSCO_g"],
     ["normal", "phi"],
     "JUP DPS Type-2: J/psi(CS+CO)+g (normal) + Upsilon(CS+CO)+g (phi)", false⟩),
   ("JUP_DPS3",
    ⟨"JUP_DPS3", "JUP", ["pool_jpsi_upsilon_CSCO", "pool_gg"],
     ["normal", "phi"],
     "JUP DPS Type-3: J/psi+Upsilon mixed with gg->gg (normal + phi)", false⟩),
   ("JUP_TPS",
    ⟨"JUP_TPS", "JUP",
     ["pool_jpsi_CSCO_g", "pool_upsilon_CSCO_g", "pool_gg"],
     ["normal", "normal", "phi"],
     "JUP TPS: Three parton scattering (normal + normal + phi)", false⟩)]

/-! ## Concrete fixtures used by witnesses and counterexamples

`campAAB` over `testCat` is the spec's own scenario: inputs [A, A, B],
pool A not pre-staged, pool B pre-staged. -/

def poolA : LHEPool := mkPool "A" "g g > g g" "test pool A" "6.0" "4.0" "4.0" none

def poolB : LHEPool :=
  mkPool "B" "g g > g g" "test pool B" "6.0" "4.0" "4.0"
    (some (poolEosLocation "B"))

def testCat : Catalog := [("A", poolA), ("B", poolB)]

def campAAB : Campaign :=
  ⟨"T1", "JJP", ["A", "A", "B"], ["normal", "phi", "normal"],
   "scenario inputs [A,A,B]", false⟩

def campUnknown : Campaign :=
  ⟨"CX", "JJP", ["A", "Zmissing"], ["normal", "phi"],
   "references an unregistered pool", false⟩

def campX : Campaign := ⟨"X", "JJP", ["A"], ["phi"], "campaign X", false⟩

def campY : Campaign := ⟨"Y", "JJP", ["A"], ["phi"], "campaign Y", false⟩

def testCampaigns : List (String × Campaign) := [("X", campX), ("Y", campY)]

/-! ## Basic lemmas -/

theorem digitVal_digitChar : ∀ d : Nat, d < 10 → digitVal (digitChar d) = d := by
  decide

theorem digitChar_ne_underscore : ∀ d : Nat, d < 10 → digitChar d ≠ '_' := by
  decide

theorem decodeDigits_append (l : List Char) (c : Char) :
    decodeDigits (l ++ [c]) = decodeDigits l * 10 + digitVal c := by
  simp [decodeDigits, List.foldl_append]

theorem natDigits_spec : ∀ fuel n, n < fuel →
    (decodeDigits (natDigits fuel n) = n ∧ natDigits fuel n ≠ [] ∧
      ∀ c ∈ natDigits fuel n, ∃ d, d < 10 ∧ c = digitChar d) := by
  intro fuel
  induction fuel with
  | zero => intro n h; omega
  | succ fuel ih =>
    intro n _
    by_cases h10 : n < 10
    · refine ⟨?_, by simp [natDigits, h10], ?_⟩
      · simp [natDigits, h10, decodeDigits, digitVal_digitChar n h10]
      · intro c hc
        simp [natDigits, h10] at hc
        exact ⟨n, h10, hc⟩
    · have hdiv : n / 10 < fuel := by
        have h1 : n / 10 < n := Nat.div_lt_self (by omega) (by omega)
        omega
      obtain ⟨hdec, hne, hdig⟩ := ih (n / 10) hdiv
      refine ⟨?_, ?_, ?_⟩
      · simp only [natDigits, if_neg h10]
        rw [decodeDigits_append, hdec, digitVal_digitChar _ (Nat.mod_lt _ (by omega))]
        omega
      · simp [natDigits, h10]
      · intro c hc
        simp only [natDigits, if_neg h10, List.mem_append, List.mem_singleton] at hc
        rcases hc with hc | hc
        · exact hdig c hc
        · exact ⟨n % 10, Nat.mod_lt _ (by omega), hc⟩

theorem decodeDigits_natDigits (n : Nat) :
    decodeDigits (natDigits (n + 1) n) = n :=
  (natDigits_spec (n + 1) n (Nat.lt_succ_self n)).1

theorem natStr_injective : Function.Injective natStr := by
  intro a b h
  have hd : natDigits (a + 1) a = natDigits (b + 1) b := by
    simpa [natStr, String.ext_iff] using h
  have := decodeDigits_natDigits a
  rw [hd, decodeDigits_natDigits b] at this
  omega

theorem natStr_ne_nil (n : Nat) : (natStr n).data ≠ [] :=
  (natDigits_spec (n + 1) n (Nat.lt_succ_self n)).2.1

theorem underscore_not_mem_natStr (n : Nat) : '_' ∉ (natStr n).data := by
  intro hmem
  obtain ⟨d, hd, hc⟩ := (natDigits_spec (n + 1) n (Nat.lt_succ_self n)).2.2 _ hmem
  exact digitChar_ne_underscore d hd hc.symm

/-! ## Separator splitting: `xs ++ '_' :: a` determines `xs` and `a`
when `a` contains no underscore. -/

theorem sep_split_inj :
    ∀ (xs ys a b : List Char), '_' ∉ a → '_' ∉ b →
      xs ++ '_' :: a = ys ++ '_' :: b → xs = ys ∧ a = b := by
  intro xs
  induction xs with
  | nil =>
    intro ys a b ha hb h
    cases ys with
    | nil => simpa using h
    | cons y ys =>
      simp only [List.nil_append, List.cons_append, List.cons.injEq] at h
      obtain ⟨hy, hrest⟩ := h
      exfalso
      apply ha
      rw [hrest]
      simp
  | cons x xs ih =>
    intro ys a b ha hb h
    cases ys with
    | nil =>
      simp only [List.cons_append, List.nil_append, List.cons.injEq] at h
      obtain ⟨hy, hrest⟩ := h
      exfalso
      apply hb
      rw [← hrest]
      simp
    | cons y ys =>
      simp only [List.cons_append, List.cons.injEq] at h
      obtain ⟨hxy, hrest⟩ := h
      obtain ⟨h1, h2⟩ := ih ys a b ha hb hrest
      exact ⟨by rw [hxy, h1], h2⟩

theorem mem_dedupFirstAux : ∀ (l seen : List String) (a : String),
    a ∈ dedupFirstAux seen l ↔ (a ∈ l ∧ a ∉ seen) := by
  intro l
  induction l with
  | nil => intro seen a; simp [dedupFirstAux]
  | cons x xs ih =>
    intro seen a
    simp only [dedupFirstAux]
    by_cases hx : x ∈ seen
    · rw [if_pos hx, ih]
      constructor
      · rintro ⟨h1, h2⟩; exact ⟨List.mem_cons_of_mem x h1, h2⟩
      · rintro ⟨h1, h2⟩
        rcases List.mem_cons.mp h1 with rfl | h1
        · exact absurd hx h2
        · exact ⟨h1, h2⟩
    · rw [if_neg hx]
      simp only [List.mem_cons, ih, List.mem_cons]
      constructor
      · rintro (rfl | ⟨h1, h2⟩)
        · exact ⟨Or.inl rfl, hx⟩
        · exact ⟨Or.inr h1, fun hs => h2 (Or.inr hs)⟩
      · rintro ⟨rfl | h1, h2⟩
        · exact Or.inl rfl
        · by_cases hax : a = x
          · exact Or.inl hax
          · exact Or.inr ⟨h1, fun hs => by
              rcases hs with hs | hs
              · exact hax hs
              · exact h2 hs⟩

theorem mem_dedupFirst (l : List String) (a : String) :
    a ∈ dedupFirst l ↔ a ∈ l := by
  rw [dedupFirst, mem_dedupFirstAux]
  simp

theorem nodup_dedupFirstAux : ∀ (l seen : List String),
    (dedupFirstAux seen l).Nodup := by
  intro l
  induction l with
  | nil => intro seen; simp [dedupFirstAux]
  | cons x xs ih =>
    intro seen
    simp only [dedupFirstAux]
    by_cases hx : x ∈ seen
    · rw [if_pos hx]; exact ih seen
    · rw [if_neg hx]
      refine List.nodup_cons.mpr ⟨?_, ih (x :: seen)⟩
      intro hmem
      exact ((mem_dedupFirstAux _ _ _).mp hmem).2 (List.mem_cons_self x seen)

theorem nodup_dedupFirst (l : List String) : (dedupFirst l).Nodup :=
  nodup_dedupFirstAux l []

theorem renderName_injective : Function.Injective renderName := by
  intro a b h
  cases a with
  | lhe p i =>
    cases b with
    | lhe q j =>
      have hd : ('L' :: 'H' :: 'E' :: '_' :: p.data) ++ '_' :: (natStr i).data =
          ('L' :: 'H' :: 'E' :: '_' :: q.data) ++ '_' :: (natStr j).data := by
        have := congrArg String.data h
        simpa [renderName, String.ext_iff] using this
      obtain ⟨h1, h2⟩ := sep_split_inj _ _ _ _
        (underscore_not_mem_natStr i) (underscore_not_mem_natStr j) hd
      simp only [List.cons.injEq] at h1
      have hp : p = q := String.ext h1.2.2.2.2
      have hi : i = j := natStr_injective (String.ext h2)
      rw [hp, hi]
    | proc q j =>
      exfalso
      have := congrArg String.data h
      simp [renderName, String.ext_iff] at this
  | proc p i =>
    cases b with
    | lhe q j =>
      exfalso
      have := congrArg String.data h
      simp [renderName, String.ext_iff] at this
    | proc q j =>
      have hd : ('P' :: 'R' :: 'O' :: 'C' :: '_' :: p.data) ++ '_' :: (natStr i).data =
          ('P' :: 'R' :: 'O' :: 'C' :: '_' :: q.data) ++ '_' :: (natStr j).data := by
        have := congrArg String.data h
        simpa [renderName, String.ext_iff] using this
      obtain ⟨h1, h2⟩ := sep_split_inj _ _ _ _
        (underscore_not_mem_natStr i) (underscore_not_mem_natStr j) hd
      simp only [List.cons.injEq] at h1
      have hp : p = q := String.ext h1.2.2.2.2.2
      have hi : i = j := natStr_injective (String.ext h2)
      rw [hp, hi]

/-! ## Flag irrelevance of `use_existing_lhe` -/

theorem gen_stage_flag (cat : Catalog) (inputs : List String) (n_jobs : Nat) :
    ∀ (pools : List String) (acc : List DagLine),
      gen_stage cat true inputs n_jobs pools acc =
        gen_stage cat false inputs n_jobs pools acc := by
  intro pools
  induction pools with
  | nil => intro acc; rfl
  | cons p rest ih =>
    intro acc
    simp only [gen_stage]
    cases hfp : findPool cat p with
    | none => rfl
    | some pool =>
      have hpr : (if (true && pool.eos_path.isSome) = true then
            (([] : List DagLine), ([] : List JobName))
          else add_lhe_generation_jobs pool (n_jobs * inputs.count p)) =
          (if (false && pool.eos_path.isSome) = true then ([], [])
          else add_lhe_generation_jobs pool (n_jobs * inputs.count p)) := by
        cases hp : pool.eos_path.isSome with
        | true => simp [add_lhe_generation_jobs, hp]
        | false => simp
      simp only [hpr, ih]

/-! ## Frame properties: the emitted suffix is independent of the
pre-existing `dag_lines` buffer -/

theorem gen_stage_frame (cat : Catalog) (u : Bool) (inputs : List String)
    (n_jobs : Nat) : ∀ (pools : List String) (acc : List DagLine),
    gen_stage cat u inputs n_jobs pools acc =
      (acc ++ (gen_stage cat u inputs n_jobs pools []).1,
       (gen_stage cat u inputs n_jobs pools []).2) := by
  intro pools
  induction pools with
  | nil => intro acc; simp [gen_stage]
  | cons p rest ih =>
    intro acc
    simp only [gen_stage]
    split
    · simp
    · rw [ih]
      conv_rhs => rw [ih]
      cases hres : (gen_stage cat u inputs n_jobs rest []).2 with
      | ok m => simp
      | error e => simp

theorem proc_jobs_loop_frame (cat : Catalog)
    (poolJobs : List (String × List JobName)) (c : Campaign) :
    ∀ (js : List Nat) (acc : List DagLine),
    proc_jobs_loop cat poolJobs c js acc =
      (acc ++ (proc_jobs_loop cat poolJobs c js []).1,
       (proc_jobs_loop cat poolJobs c js []).2) := by
  intro js
  induction js with
  | nil => intro acc; simp [proc_jobs_loop]
  | cons j rest ih =>
    intro acc
    simp only [proc_jobs_loop]
    split
    · simp
    · rw [ih]
      conv_rhs => rw [ih]
      cases hres : (proc_jobs_loop cat poolJobs c rest []).2 with
      | ok nms => simp
      | error e => simp

theorem gen_stage_fst (cat : Catalog) (u : Bool) (inputs : List String)
    (n_jobs : Nat) (pools : List String) (acc : List DagLine) :
    (gen_stage cat u inputs n_jobs pools acc).1 =
      acc ++ (gen_stage cat u inputs n_jobs pools []).1 := by
  rw [gen_stage_frame]

theorem gen_stage_snd (cat : Catalog) (u : Bool) (inputs : List String)
    (n_jobs : Nat) (pools : List String) (acc : List DagLine) :
    (gen_stage cat u inputs n_jobs pools acc).2 =
      (gen_stage cat u inputs n_jobs pools []).2 := by
  rw [gen_stage_frame]

theorem generate_campaign_dag_frame (cat : Catalog) (c : Campaign)
    (n_jobs : Nat) (u : Bool) (acc : List DagLine) :
    generate_campaign_dag cat c n_jobs u acc =
      (acc ++ (generate_campaign_dag cat c n_jobs u []).1,
       (generate_campaign_dag cat c n_jobs u []).2) := by
  simp only [generate_campaign_dag]
  rw [gen_stage_snd cat u c.inputs n_jobs (dedupFirst c.inputs)
      (acc ++ campaign_header c),
    gen_stage_fst cat u c.inputs n_jobs (dedupFirst c.inputs)
      (acc ++ campaign_header c)]
  conv_rhs => rw [gen_stage_snd cat u c.inputs n_jobs (dedupFirst c.inputs)
      ([] ++ campaign_header c),
    gen_stage_fst cat u c.inputs n_jobs (dedupFirst c.inputs)
      ([] ++ campaign_header c)]
  cases hres : (gen_stage cat u c.inputs n_jobs (dedupFirst c.inputs) []).2 with
  | error e => simp
  | ok poolJobs =>
    simp only [List.nil_append, List.append_assoc]
    rw [proc_jobs_loop_frame cat poolJobs c (List.range n_jobs)
        (acc ++ (campaign_header c ++
          (gen_stage cat u c.inputs n_jobs (dedupFirst c.inputs) []).1))]
    conv_rhs => rw [proc_jobs_loop_frame cat poolJobs c (List.range n_jobs)
        (campaign_header c ++
          (gen_stage cat u c.inputs n_jobs (dedupFirst c.inputs) []).1)]
    cases (proc_jobs_loop cat poolJobs c (List.range n_jobs) []).2 with
    | ok nms => simp
    | error e => simp

theorem generate_campaign_dag_fst (cat : Catalog) (c : Campaign)
    (n_jobs : Nat) (u : Bool) (acc : List DagLine) :
    (generate_campaign_dag cat c n_jobs u acc).1 =
      acc ++ (generate_campaign_dag cat c n_jobs u []).1 := by
  rw [generate_campaign_dag_frame]

theorem generate_campaign_dag_snd (cat : Catalog) (c : Campaign)
    (n_jobs : Nat) (u : Bool) (acc : List DagLine) :
    (generate_campaign_dag cat c n_jobs u acc).2 =
      (generate_campaign_dag cat c n_jobs u []).2 := by
  rw [generate_campaign_dag_frame]

theorem full_dag_loop_frame (cat : Catalog)
    (campaigns : List (String × Campaign)) (n_jobs : Nat) :
    ∀ (names : List String) (acc : List DagLine) (jobs : List JobName),
    full_dag_loop cat campaigns n_jobs names acc jobs =
      (acc ++ (full_dag_loop cat campaigns n_jobs names [] jobs).1,
       (full_dag_loop cat campaigns n_jobs names [] jobs).2) := by
  intro names
  induction names with
  | nil =>
    intro acc jobs
    cases h : jobs.isEmpty <;> simp [full_dag_loop, h]
  | cons nm rest ih =>
    intro acc jobs
    simp only [full_dag_loop]
    split
    · exact ih acc jobs
    · rename_i optc c heq
      rw [generate_campaign_dag_snd cat c n_jobs true acc,
        generate_campaign_dag_fst cat c n_jobs true acc]
      cases hres : (generate_campaign_dag cat c n_jobs true []).2 with
      | error e => simp
      | ok js =>
        show full_dag_loop cat campaigns n_jobs rest
            (acc ++ (generate_campaign_dag cat c n_jobs true []).1) (jobs ++ js) =
          (acc ++ (full_dag_loop cat campaigns n_jobs rest
              ((generate_campaign_dag cat c n_jobs true []).1) (jobs ++ js)).1,
           (full_dag_loop cat campaigns n_jobs rest
              ((generate_campaign_dag cat c n_jobs true []).1) (jobs ++ js)).2)
        rw [ih (acc ++ (generate_campaign_dag cat c n_jobs true []).1) (jobs ++ js),
          ih ((generate_campaign_dag cat c n_jobs true []).1) (jobs ++ js)]
        simp

theorem full_dag_loop_fst (cat : Catalog)
    (campaigns : List (String × Campaign)) (n_jobs : Nat)
    (names : List String) (acc : List DagLine) (jobs : List JobName) :
    (full_dag_loop cat campaigns n_jobs names acc jobs).1 =
      acc ++ (full_dag_loop cat campaigns n_jobs names [] jobs).1 := by
  rw [full_dag_loop_frame]

theorem full_dag_loop_snd (cat : Catalog)
    (campaigns : List (String × Campaign)) (n_jobs : Nat)
    (names : List String) (acc : List DagLine) (jobs : List JobName) :
    (full_dag_loop cat campaigns n_jobs names acc jobs).2 =
      (full_dag_loop cat campaigns n_jobs names [] jobs).2 := by
  rw [full_dag_loop_frame]

/-! ## Characterization of the generation stage -/

theorem enumerate_map_fst {α : Type} :
    ∀ (xs : List α) (i : Nat),
    (enumerate i xs).map Prod.fst = List.range' i xs.length := by
  intro xs
  induction xs with
  | nil => intro i; rfl
  | cons x xs ih =>
    intro i
    simp only [enumerate, List.map_cons, List.length_cons, List.range'_succ]
    rw [ih]

theorem lhe_gen_loop_names (pool : LHEPool) :
    ∀ (m i s : Nat),
    (lhe_gen_loop pool (enumerate i (List.range' s m))).2 =
      (List.range' i m).map (JobName.lhe pool.name) := by
  intro m
  induction m with
  | zero => intro i s; rfl
  | succ m ih =>
    intro i s
    rw [List.range'_succ, List.range'_succ]
    simp only [enumerate, lhe_gen_loop, List.map_cons]
    rw [ih]

theorem lhe_gen_loop_job_count (pool : LHEPool) (p : String) :
    ∀ l : List (Nat × Nat),
    ((lhe_gen_loop pool l).1.countP (isGenJobFor p)) =
      if pool.name = p then l.length else 0 := by
  intro l
  induction l with
  | nil => simp [lhe_gen_loop]
  | cons q rest ih =>
    obtain ⟨i, seed⟩ := q
    simp only [lhe_gen_loop, List.countP_cons, ih, isGenJobFor, List.length_cons]
    by_cases h : pool.name = p
    · simp [h]
    · simp [h]

theorem lhe_gen_loop_job_names (pool : LHEPool) :
    ∀ l : List (Nat × Nat),
    job_names (lhe_gen_loop pool l).1 =
      l.map (fun q => JobName.lhe pool.name q.1) := by
  intro l
  induction l with
  | nil => rfl
  | cons q rest ih =>
    obtain ⟨i, seed⟩ := q
    simp only [lhe_gen_loop, job_names, List.filterMap_cons, jobNameOf]
    simpa [job_names] using ih

theorem lhe_gen_loop_no_proc (pool : LHEPool) :
    ∀ l : List (Nat × Nat),
    ((lhe_gen_loop pool l).1.countP isProcJobLine = 0) ∧
    ((lhe_gen_loop pool l).1.countP isParentLine = 0) ∧
    ((lhe_gen_loop pool l).1.countP isFinalDirective = 0) := by
  intro l
  induction l with
  | nil => simp [lhe_gen_loop]
  | cons q rest ih =>
    obtain ⟨i, seed⟩ := q
    simp only [lhe_gen_loop, List.countP_cons, isProcJobLine, isParentLine,
      isFinalDirective]
    simp [ih.1, ih.2.1, ih.2.2, isProcJobLine, isParentLine, isFinalDirective]

theorem dictGet_map_self {β : Type} (f : String → β) :
    ∀ (pools : List String) (p : String), p ∈ pools →
    dictGet (pools.map (fun q => (q, f q))) p = some (f p) := by
  intro pools
  induction pools with
  | nil => intro p hp; cases hp
  | cons q rest ih =>
    intro p hp
    simp only [List.map_cons, dictGet]
    by_cases hqp : q = p
    · rw [if_pos hqp, hqp]
    · rw [if_neg hqp]
      rcases List.mem_cons.mp hp with rfl | hp
      · exact absurd rfl hqp
      · exact ih p hp

theorem branch_eq_pool_gen_entry (cat : Catalog) (inputs : List String)
    (n_jobs : Nat) (q : String) (pool : LHEPool) (u : Bool)
    (hfp : findPool cat q = some pool) :
    (if (u && pool.eos_path.isSome) = true then ([], [])
     else add_lhe_generation_jobs pool (n_jobs * inputs.count q)) =
      pool_gen_entry cat inputs n_jobs q := by
  simp only [pool_gen_entry, hfp]
  cases hp : pool.eos_path.isSome with
  | false => simp [hp]
  | true =>
    cases u with
    | false => simp [add_lhe_generation_jobs, hp]
    | true => simp [hp]

theorem gen_stage_ok (cat : Catalog) (u : Bool) (inputs : List String)
    (n_jobs : Nat) :
    ∀ pools : List String, (∀ q ∈ pools, pool_ok cat q = true) →
    gen_stage cat u inputs n_jobs pools [] =
      (gen_stage_lines_spec cat inputs n_jobs pools,
       .ok (pools.map (fun q => (q, (pool_gen_entry cat inputs n_jobs q).2)))) := by
  intro pools
  induction pools with
  | nil => intro _; rfl
  | cons q rest ih =>
    intro h
    have hq := h q (List.mem_cons_self q rest)
    have hfp : ∃ pool, findPool cat q = some pool := by
      unfold pool_ok at hq
      cases hget : findPool cat q with
      | none => rw [hget] at hq; cases hq
      | some pool => exact ⟨pool, rfl⟩
    obtain ⟨pool, hfp⟩ := hfp
    simp only [gen_stage, hfp]
    rw [branch_eq_pool_gen_entry cat inputs n_jobs q pool u hfp]
    rw [gen_stage_snd cat u inputs n_jobs rest
        ([] ++ (pool_gen_entry cat inputs n_jobs q).1),
      gen_stage_fst cat u inputs n_jobs rest
        ([] ++ (pool_gen_entry cat inputs n_jobs q).1)]
    rw [ih (fun r hr => h r (List.mem_cons_of_mem q hr))]
    simp [gen_stage_lines_spec]

/-! ## Characterization of the processing-stage inner loop -/

theorem add_lhe_generation_jobs_names (pool : LHEPool) (m : Nat)
    (hp : pool.eos_path.isSome = false) :
    (add_lhe_generation_jobs pool m).2 =
      (List.range' 0 m).map (JobName.lhe pool.name) := by
  simp only [add_lhe_generation_jobs, hp, Bool.false_eq_true, if_false]
  exact lhe_gen_loop_names pool m 0 100

theorem count_lt_of_split (pre rest : List String) (q : String) :
    pre.count q < (pre ++ q :: rest).count q := by
  rw [List.count_append]
  have h : (q :: rest).count q = rest.count q + 1 := by
    rw [List.count_cons]; simp
  omega

theorem lheJobIdx_lt (cnt n j u : Nat) (hj : j < n) (hu : u < cnt) :
    j * cnt + u < n * cnt := by
  calc j * cnt + u < (j + 1) * cnt := by rw [Nat.succ_mul]; omega
    _ ≤ n * cnt := Nat.mul_le_mul_right cnt (by omega)

theorem pool_ok_elim (cat : Catalog) (q : String) (h : pool_ok cat q = true) :
    ∃ pool, findPool cat q = some pool ∧ pool.name = q := by
  unfold pool_ok at h
  cases hget : findPool cat q with
  | none => rw [hget] at h; cases h
  | some pool =>
    rw [hget] at h
    exact ⟨pool, rfl, by simpa using h⟩

theorem collect_lhe_refs_eq (cat : Catalog)
    (poolJobs : List (String × List JobName)) (full : List String)
    (n_jobs jobId : Nat)
    (hok : ∀ q ∈ full, pool_ok cat q = true)
    (hpj : ∀ q ∈ full, dictGet poolJobs q =
      some ((pool_gen_entry cat full n_jobs q).2))
    (hj : jobId < n_jobs) :
    ∀ (rest pre : List String) (cnt : String → Nat),
      full = pre ++ rest →
      (∀ q, cnt q = pre.count q) →
      collect_lhe_refs cat poolJobs full jobId rest cnt =
        .ok (refs_spec_loop cat full jobId rest pre.length,
             parents_spec_loop cat full jobId rest pre.length) := by
  intro rest
  induction rest with
  | nil => intro pre cnt _ _; rfl
  | cons q rest ih =>
    intro pre cnt hfull hcnt
    have hqfull : q ∈ full := by
      rw [hfull]; exact List.mem_append_right pre (List.mem_cons_self q rest)
    obtain ⟨pool, hfp, hname⟩ := pool_ok_elim cat q (hok q hqfull)
    have hu : cnt q = (full.take pre.length).count q := by
      rw [hcnt q, hfull, List.take_left]
    have hcnt' : ∀ r, (if r = q then cnt r + 1 else cnt r) =
        (pre ++ [q]).count r := by
      intro r
      rw [List.count_append]
      by_cases hrq : r = q
      · subst hrq
        rw [if_pos rfl, hcnt r, List.count_cons]
        simp
      · rw [if_neg hrq, hcnt r, List.count_cons]
        have : (q == r) = false := beq_eq_false_iff_ne.mpr (fun h => hrq h.symm)
        simp [this]
    have hfull' : full = (pre ++ [q]) ++ rest := by rw [hfull]; simp
    have hlen : (pre ++ [q]).length = pre.length + 1 := by simp
    simp only [collect_lhe_refs, hfp]
    cases hp : pool.eos_path.isSome with
    | true =>
      simp only [if_pos rfl]
      rw [ih (pre ++ [q]) _ hfull' hcnt', hlen]
      simp [refs_spec_loop, parents_spec_loop, hfp, hp, hu]
    | false =>
      simp only [Bool.false_eq_true, if_false]
      rw [hpj q hqfull]
      have hentry : (pool_gen_entry cat full n_jobs q).2 =
          (List.range' 0 (n_jobs * full.count q)).map (JobName.lhe pool.name) := by
        simp only [pool_gen_entry, hfp, hp, Bool.false_eq_true, if_false]
        exact add_lhe_generation_jobs_names pool _ hp
      have hub : cnt q < full.count q := by
        rw [hcnt q]
        have h2 : full.count q = (pre ++ q :: rest).count q := by rw [hfull]
        rw [h2]
        exact count_lt_of_split pre rest q
      have hidx : lheJobIdx full q jobId (cnt q) < n_jobs * full.count q := by
        rw [Nat.mul_comm n_jobs (full.count q)]
        have := lheJobIdx_lt (full.count q) n_jobs jobId (cnt q) hj hub
        simpa [lheJobIdx, Nat.mul_comm] using this
      have hget : ((List.range' 0 (n_jobs * full.count q)).map
          (JobName.lhe pool.name))[lheJobIdx full q jobId (cnt q)]? =
            some (JobName.lhe pool.name (lheJobIdx full q jobId (cnt q))) := by
        rw [List.getElem?_map, List.getElem?_range' 0 1 hidx]
        simp
      rw [hentry]
      split
      next heq => simp at heq
      next names heq =>
        injection heq with heq
        subst heq
        rw [hget]
        split
        next heq2 => simp at heq2
        next nm heq2 =>
          injection heq2 with heq2
          subst heq2
          rw [ih (pre ++ [q]) _ hfull' hcnt', hlen]
          simp [refs_spec_loop, parents_spec_loop, hfp, hp, hu, hname]

theorem proc_jobs_loop_ok (cat : Catalog)
    (poolJobs : List (String × List JobName)) (c : Campaign) (n_jobs : Nat)
    (hok : ∀ q ∈ c.inputs, pool_ok cat q = true)
    (hpj : ∀ q ∈ c.inputs, dictGet poolJobs q =
      some ((pool_gen_entry cat c.inputs n_jobs q).2)) :
    ∀ js : List Nat, (∀ j ∈ js, j < n_jobs) →
    proc_jobs_loop cat poolJobs c js [] =
      (proc_lines_spec cat c js, .ok (js.map (JobName.proc c.name))) := by
  intro js
  induction js with
  | nil => intro _; rfl
  | cons j rest ih =>
    intro hjs
    have hj := hjs j (List.mem_cons_self j rest)
    have hcol := collect_lhe_refs_eq cat poolJobs c.inputs n_jobs j hok hpj hj
      c.inputs [] (fun _ => 0) rfl (by intro q; simp)
    simp only [proc_jobs_loop]
    rw [hcol]
    split
    next heq => simp at heq
    next fp heq =>
      injection heq with heq
      subst heq
      rw [proc_jobs_loop_frame cat poolJobs c rest]
      rw [ih (fun j2 hj2 => hjs j2 (List.mem_cons_of_mem j hj2))]
      simp [proc_lines_spec, add_processing_job, refs_spec, parents_spec]

/-- Master characterization: under a well-formed catalog (every referenced
pool resolves and its record name equals its key), `generate_campaign_dag`
appends exactly `campaign_lines_spec` and returns the processing job names
PROC_name_0 .. PROC_name_(N-1). -/
theorem generate_campaign_dag_ok (cat : Catalog) (c : Campaign) (n_jobs : Nat)
    (u : Bool) (acc : List DagLine)
    (hok : ∀ q ∈ c.inputs, pool_ok cat q = true) :
    generate_campaign_dag cat c n_jobs u acc =
      (acc ++ campaign_lines_spec cat c n_jobs,
       .ok ((List.range n_jobs).map (JobName.proc c.name))) := by
  have hok' : ∀ q ∈ dedupFirst c.inputs, pool_ok cat q = true :=
    fun q hq => hok q ((mem_dedupFirst _ _).mp hq)
  simp only [generate_campaign_dag]
  rw [gen_stage_frame cat u c.inputs n_jobs (dedupFirst c.inputs)
      (acc ++ campaign_header c)]
  rw [gen_stage_ok cat u c.inputs n_jobs (dedupFirst c.inputs) hok']
  split
  next heq => simp at heq
  next poolJobs heq =>
    injection heq with heq
    subst heq
    rw [proc_jobs_loop_frame]
    rw [proc_jobs_loop_ok cat _ c n_jobs hok
      (fun q hq => dictGet_map_self
        (fun r => (pool_gen_entry cat c.inputs n_jobs r).2)
        (dedupFirst c.inputs) q ((mem_dedupFirst _ _).mpr hq))
      (List.range n_jobs) (fun j hj => List.mem_range.mp hj)]
    simp [campaign_lines_spec]

/-! ## Counting and membership lemmas over the emitted lines -/

theorem enumerate_length {α : Type} :
    ∀ (xs : List α) (i : Nat), (enumerate i xs).length = xs.length := by
  intro xs
  induction xs with
  | nil => intro i; rfl
  | cons x xs ih => intro i; simp [enumerate, ih]

theorem refs_spec_loop_length (cat : Catalog) (full : List String)
    (jobId : Nat) : ∀ (rest : List String) (k : Nat),
    (refs_spec_loop cat full jobId rest k).length = rest.length := by
  intro rest
  induction rest with
  | nil => intro k; rfl
  | cons q rest ih => intro k; simp [refs_spec_loop, ih]

theorem refs_spec_length (cat : Catalog) (full : List String) (jobId : Nat) :
    (refs_spec cat full jobId).length = full.length :=
  refs_spec_loop_length cat full jobId full 0

theorem campaign_header_counts (c : Campaign) (f : DagLine → Bool)
    (hc : ∀ t, f (DagLine.comment t) = false) :
    (campaign_header c).countP f = 0 := by
  by_cases hd : c.deprecated <;>
    simp [campaign_header, hd, List.countP_cons, hc]

theorem pool_gen_entry_counts (cat : Catalog) (inputs : List String)
    (n_jobs : Nat) (q : String) :
    ((pool_gen_entry cat inputs n_jobs q).1.countP isProcJobLine = 0) ∧
    ((pool_gen_entry cat inputs n_jobs q).1.countP isParentLine = 0) ∧
    ((pool_gen_entry cat inputs n_jobs q).1.countP isFinalDirective = 0) := by
  unfold pool_gen_entry
  cases hfp : findPool cat q with
  | none => simp
  | some pool =>
    cases hp : pool.eos_path.isSome with
    | true => simp [hp]
    | false =>
      simp only [Bool.false_eq_true, if_false, add_lhe_generation_jobs, hp]
      exact lhe_gen_loop_no_proc pool _

theorem gen_stage_lines_spec_counts (cat : Catalog) (inputs : List String)
    (n_jobs : Nat) : ∀ pools : List String,
    ((gen_stage_lines_spec cat inputs n_jobs pools).countP isProcJobLine = 0) ∧
    ((gen_stage_lines_spec cat inputs n_jobs pools).countP isParentLine = 0) ∧
    ((gen_stage_lines_spec cat inputs n_jobs pools).countP isFinalDirective = 0) := by
  intro pools
  induction pools with
  | nil => simp [gen_stage_lines_spec]
  | cons q rest ih =>
    have hq := pool_gen_entry_counts cat inputs n_jobs q
    simp [gen_stage_lines_spec, List.countP_append, hq.1, hq.2.1, hq.2.2,
      ih.1, ih.2.1, ih.2.2]

theorem proc_lines_spec_proc_count (cat : Catalog) (c : Campaign) :
    ∀ js : List Nat,
    (proc_lines_spec cat c js).countP isProcJobLine = js.length := by
  intro js
  induction js with
  | nil => simp [proc_lines_spec]
  | cons j rest ih =>
    simp only [proc_lines_spec, List.countP_append, ih, add_processing_job]
    by_cases hpar : (parents_spec cat c.inputs j).isEmpty <;>
      simp [hpar, List.countP_cons, isProcJobLine, List.length_cons] <;> omega

theorem proc_lines_spec_gen_count (cat : Catalog) (c : Campaign) (p : String) :
    ∀ js : List Nat,
    (proc_lines_spec cat c js).countP (isGenJobFor p) = 0 := by
  intro js
  induction js with
  | nil => simp [proc_lines_spec]
  | cons j rest ih =>
    simp only [proc_lines_spec, List.countP_append, ih, add_processing_job]
    by_cases hpar : (parents_spec cat c.inputs j).isEmpty <;>
      simp [hpar, List.countP_cons, isGenJobFor]

theorem add_lhe_gen_count (pool : LHEPool) (p : String) (m : Nat) :
    (add_lhe_generation_jobs pool m).1.countP (isGenJobFor p) =
      if pool.eos_path.isSome then 0
      else if pool.name = p then m else 0 := by
  cases hp : pool.eos_path.isSome with
  | true => simp [add_lhe_generation_jobs, hp]
  | false =>
    simp only [add_lhe_generation_jobs, hp, Bool.false_eq_true, if_false]
    rw [lhe_gen_loop_job_count]
    rw [enumerate_length]
    simp [generate_seed_list]

theorem gen_stage_lines_spec_gen_count (cat : Catalog) (inputs : List String)
    (n_jobs : Nat) (p : String) (pool : LHEPool)
    (hfind : findPool cat p = some pool) :
    ∀ pools : List String, pools.Nodup →
      (∀ q ∈ pools, pool_ok cat q = true) →
    (gen_stage_lines_spec cat inputs n_jobs pools).countP (isGenJobFor p) =
      if p ∈ pools then
        (if pool.eos_path.isSome then 0 else n_jobs * inputs.count p)
      else 0 := by
  intro pools
  induction pools with
  | nil => intro _ _; simp [gen_stage_lines_spec]
  | cons q rest ih =>
    intro hnd hall
    obtain ⟨hqrest, hndrest⟩ := List.nodup_cons.mp hnd
    obtain ⟨poolq, hfq, hnq⟩ :=
      pool_ok_elim cat q (hall q (List.mem_cons_self q rest))
    have ihr := ih hndrest (fun r hr => hall r (List.mem_cons_of_mem q hr))
    simp only [gen_stage_lines_spec, List.countP_append, ihr]
    have hentry : (pool_gen_entry cat inputs n_jobs q).1.countP (isGenJobFor p) =
        if q = p then
          (if poolq.eos_path.isSome then 0 else n_jobs * inputs.count p)
        else 0 := by
      simp only [pool_gen_entry, hfq]
      cases hp : poolq.eos_path.isSome with
      | true => simp [hp]
      | false =>
        simp only [Bool.false_eq_true, if_false]
        rw [add_lhe_gen_count, hnq, hp]
        simp only [Bool.false_eq_true, if_false]
        by_cases hqp : q = p
        · subst hqp; simp
        · simp [hqp]
    rw [hentry]
    by_cases hqp : q = p
    · subst hqp
      have hpool : poolq = pool := by rw [hfq] at hfind; injection hfind
      subst hpool
      rw [if_pos rfl, if_pos (List.mem_cons_self q rest), if_neg hqrest]
      omega
    · rw [if_neg hqp]
      by_cases hpr : p ∈ rest
      · rw [if_pos hpr, if_pos (List.mem_cons_of_mem q hpr)]
        omega
      · rw [if_neg hpr, if_neg (by
          intro hmem
          rcases List.mem_cons.mp hmem with h | h
          · exact hqp h.symm
          · exact hpr h)]

theorem proc_block_subset (cat : Catalog) (c : Campaign) (j : Nat) :
    ∀ js : List Nat, j ∈ js →
    ∀ x ∈ (add_processing_job c j (refs_spec cat c.inputs j)
        (parents_spec cat c.inputs j)).1, x ∈ proc_lines_spec cat c js := by
  intro js
  induction js with
  | nil => intro h; cases h
  | cons j' rest ih =>
    intro hj x hx
    simp only [proc_lines_spec, List.mem_append]
    rcases List.mem_cons.mp hj with rfl | hj
    · exact Or.inl hx
    · exact Or.inr (ih hj x hx)

theorem parent_line_char (cat : Catalog) (c : Campaign) :
    ∀ (js : List Nat) (x : DagLine), x ∈ proc_lines_spec cat c js →
      isParentLine x = true →
      ∃ j' ∈ js, x = DagLine.parent (parents_spec cat c.inputs j')
          (JobName.proc c.name j') ∧ parents_spec cat c.inputs j' ≠ [] := by
  intro js
  induction js with
  | nil => intro x hx; simp [proc_lines_spec] at hx
  | cons j' rest ih =>
    intro x hx hpar
    simp only [proc_lines_spec, List.mem_append] at hx
    rcases hx with hx | hx
    · simp only [add_processing_job] at hx
      rcases List.mem_append.mp hx with hx | hx
      · simp only [List.mem_cons, List.not_mem_nil, or_false] at hx
        rcases hx with rfl | rfl | rfl <;> simp [isParentLine] at hpar
      · by_cases hemp : (parents_spec cat c.inputs j').isEmpty
        · rw [if_pos hemp] at hx
          cases hx
        · rw [if_neg hemp] at hx
          rcases List.mem_singleton.mp hx with rfl
          refine ⟨j', List.mem_cons_self j' rest, rfl, ?_⟩
          intro h
          exact hemp (List.isEmpty_iff.mpr h)
    · obtain ⟨j2, hj2, hx2, hne⟩ := ih x hx hpar
      exact ⟨j2, List.mem_cons_of_mem j' hj2, hx2, hne⟩

/-! ## Error behaviour of stage 1 (unknown pools) -/

theorem gen_stage_error (cat : Catalog) (u : Bool) (inputs : List String)
    (n_jobs : Nat) : ∀ pools : List String,
    (∃ p ∈ pools, findPool cat p = none) →
    ∃ e, (gen_stage cat u inputs n_jobs pools []).2 = .error e := by
  intro pools
  induction pools with
  | nil => rintro ⟨p, hp, _⟩; cases hp
  | cons q rest ih =>
    rintro ⟨p, hp, hnone⟩
    cases hfq : findPool cat q with
    | none => exact ⟨.unknownPool q, by simp [gen_stage, hfq]⟩
    | some pool =>
      have hprest : p ∈ rest := by
        rcases List.mem_cons.mp hp with rfl | h
        · rw [hfq] at hnone; cases hnone
        · exact h
      obtain ⟨e, he⟩ := ih ⟨p, hprest, hnone⟩
      refine ⟨e, ?_⟩
      simp only [gen_stage, hfq]
      rw [gen_stage_snd, he]

theorem gen_stage_nil_proc_count (cat : Catalog) (u : Bool)
    (inputs : List String) (n_jobs : Nat) : ∀ pools : List String,
    (gen_stage cat u inputs n_jobs pools []).1.countP isProcJobLine = 0 := by
  intro pools
  induction pools with
  | nil => simp [gen_stage]
  | cons q rest ih =>
    simp only [gen_stage]
    cases hfq : findPool cat q with
    | none => simp
    | some pool =>
      have hpr : (if (u && pool.eos_path.isSome) = true then ([], [])
          else add_lhe_generation_jobs pool
            (n_jobs * inputs.count q)).1.countP isProcJobLine = 0 := by
        by_cases hb : (u && pool.eos_path.isSome) = true
        · simp [hb]
        · rw [if_neg hb]
          cases hp : pool.eos_path.isSome with
          | true => simp [add_lhe_generation_jobs, hp]
          | false =>
            simp only [add_lhe_generation_jobs, hp, Bool.false_eq_true,
              if_false]
            exact (lhe_gen_loop_no_proc pool _).1
      cases hres : (gen_stage cat u inputs n_jobs rest
          ([] ++ (if (u && pool.eos_path.isSome) = true then ([], [])
            else add_lhe_generation_jobs pool (n_jobs * inputs.count q)).1)).2 with
      | ok m =>
        simp only [hres]
        rw [gen_stage_fst, List.nil_append, List.countP_append, hpr, ih]
      | error e =>
        simp only [hres]
        rw [gen_stage_fst, List.nil_append, List.countP_append, hpr, ih]

/-! ## Multiplicity zero -/

theorem add_lhe_zero (pool : LHEPool) :
    add_lhe_generation_jobs pool 0 = ([], []) := by
  unfold add_lhe_generation_jobs
  cases hp : pool.eos_path.isSome with
  | true => simp [hp]
  | false => simp [hp, generate_seed_list, enumerate, lhe_gen_loop]

theorem gen_stage_zero_fst (cat : Catalog) (u : Bool) (inputs : List String) :
    ∀ (pools : List String) (acc : List DagLine),
    (gen_stage cat u inputs 0 pools acc).1 = acc := by
  intro pools
  induction pools with
  | nil => intro acc; rfl
  | cons q rest ih =>
    intro acc
    simp only [gen_stage]
    split
    · rfl
    · rename_i pool heq
      have hpr : (if (u && pool.eos_path.isSome) = true then ([], [])
          else add_lhe_generation_jobs pool (0 * inputs.count q)) =
          (([] : List DagLine), ([] : List JobName)) := by
        by_cases hb : (u && pool.eos_path.isSome) = true
        · rw [if_pos hb]
        · rw [if_neg hb, Nat.zero_mul, add_lhe_zero]
      rw [hpr]
      cases hres : (gen_stage cat u inputs 0 rest
          (acc ++ (([] : List DagLine), ([] : List JobName)).1)).2 <;>
        simp [ih]

theorem campaign_zero (cat : Catalog) (c : Campaign) (u : Bool)
    (acc : List DagLine) :
    (generate_campaign_dag cat c 0 u acc).1 = acc ++ campaign_header c ∧
    ((generate_campaign_dag cat c 0 u acc).2 = .ok [] ∨
      ∃ e, (generate_campaign_dag cat c 0 u acc).2 = .error e) := by
  simp only [generate_campaign_dag]
  cases hres : (gen_stage cat u c.inputs 0 (dedupFirst c.inputs)
      (acc ++ campaign_header c)).2 with
  | error e =>
    constructor
    · simp [hres, gen_stage_zero_fst]
    · exact Or.inr ⟨e, by simp [hres]⟩
  | ok pj =>
    constructor
    · simp [hres, List.range_zero, proc_jobs_loop, gen_stage_zero_fst]
    · exact Or.inl (by simp [hres, List.range_zero, proc_jobs_loop])

theorem full_dag_loop_zero (cat : Catalog)
    (campaigns : List (String × Campaign)) :
    ∀ (names : List String) (acc : List DagLine),
    acc.countP isJobDirective = 0 → acc.countP isFinalDirective = 0 →
    ((full_dag_loop cat campaigns 0 names acc []).1.countP
        isJobDirective = 0 ∧
     (full_dag_loop cat campaigns 0 names acc []).1.countP
        isFinalDirective = 0) := by
  intro names
  induction names with
  | nil =>
    intro acc hj hf
    simp [full_dag_loop, hj, hf]
  | cons nm rest ih =>
    intro acc hj hf
    simp only [full_dag_loop]
    split
    · exact ih acc hj hf
    · rename_i c heq
      obtain ⟨h1, h2⟩ := campaign_zero cat c true acc
      have hcnt_j : (generate_campaign_dag cat c 0 true acc).1.countP
          isJobDirective = 0 := by
        rw [h1, List.countP_append, hj,
          campaign_header_counts c isJobDirective (fun t => rfl)]
      have hcnt_f : (generate_campaign_dag cat c 0 true acc).1.countP
          isFinalDirective = 0 := by
        rw [h1, List.countP_append, hf,
          campaign_header_counts c isFinalDirective (fun t => rfl)]
      rcases h2 with hok2 | ⟨e, he⟩
      · rw [hok2]
        exact ih _ hcnt_j hcnt_f
      · rw [he]
        exact ⟨hcnt_j, hcnt_f⟩

/-! ## Job-name uniqueness machinery -/

theorem campaign_header_names (c : Campaign) :
    job_names (campaign_header c) = [] := by
  by_cases hd : c.deprecated <;>
    simp [campaign_header, hd, job_names, jobNameOf]

theorem pool_gen_entry_names (cat : Catalog) (inputs : List String)
    (n_jobs : Nat) (q : String) (pool : LHEPool)
    (hfp : findPool cat q = some pool) (hnq : pool.name = q) :
    job_names (pool_gen_entry cat inputs n_jobs q).1 =
      if pool.eos_path.isSome then []
      else (List.range' 0 (n_jobs * inputs.count q)).map (JobName.lhe q) := by
  simp only [pool_gen_entry, hfp]
  cases hp : pool.eos_path.isSome with
  | true => simp [job_names]
  | false =>
    simp only [Bool.false_eq_true, if_false, add_lhe_generation_jobs, hp]
    rw [lhe_gen_loop_job_names,
      show (fun (p : Nat × Nat) => JobName.lhe pool.name p.1) =
        (JobName.lhe pool.name) ∘ Prod.fst from rfl,
      ← List.map_map, enumerate_map_fst]
    simp [generate_seed_list, hnq]

theorem gen_stage_names_shape (cat : Catalog) (inputs : List String)
    (n_jobs : Nat) : ∀ pools : List String,
    (∀ q ∈ pools, pool_ok cat q = true) →
    ∀ nm ∈ job_names (gen_stage_lines_spec cat inputs n_jobs pools),
      ∃ q ∈ pools, ∃ i, nm = JobName.lhe q i := by
  intro pools
  induction pools with
  | nil => intro _ nm hnm; simp [gen_stage_lines_spec, job_names] at hnm
  | cons q rest ih =>
    intro hall nm hnm
    obtain ⟨pool, hfp, hnq⟩ :=
      pool_ok_elim cat q (hall q (List.mem_cons_self q rest))
    simp only [gen_stage_lines_spec, job_names, List.filterMap_append] at hnm
    rcases List.mem_append.mp hnm with hnm | hnm
    · have hentry := pool_gen_entry_names cat inputs n_jobs q pool hfp hnq
      rw [show List.filterMap jobNameOf (pool_gen_entry cat inputs n_jobs q).1 =
          job_names (pool_gen_entry cat inputs n_jobs q).1 from rfl,
        hentry] at hnm
      by_cases hp : pool.eos_path.isSome = true
      · rw [if_pos hp] at hnm; cases hnm
      · rw [if_neg hp] at hnm
        obtain ⟨i, _, hi⟩ := List.mem_map.mp hnm
        exact ⟨q, List.mem_cons_self q rest, i, hi.symm⟩
    · obtain ⟨q2, hq2, i, hi⟩ := ih
        (fun r hr => hall r (List.mem_cons_of_mem q hr)) nm hnm
      exact ⟨q2, List.mem_cons_of_mem q hq2, i, hi⟩

theorem gen_stage_names_nodup (cat : Catalog) (inputs : List String)
    (n_jobs : Nat) : ∀ pools : List String, pools.Nodup →
    (∀ q ∈ pools, pool_ok cat q = true) →
    (job_names (gen_stage_lines_spec cat inputs n_jobs pools)).Nodup := by
  intro pools
  induction pools with
  | nil => intro _ _; simp [gen_stage_lines_spec, job_names]
  | cons q rest ih =>
    intro hnd hall
    obtain ⟨hqrest, hndrest⟩ := List.nodup_cons.mp hnd
    obtain ⟨pool, hfp, hnq⟩ :=
      pool_ok_elim cat q (hall q (List.mem_cons_self q rest))
    simp only [gen_stage_lines_spec, job_names, List.filterMap_append]
    rw [List.nodup_append]
    refine ⟨?_, ?_, ?_⟩
    · rw [show List.filterMap jobNameOf (pool_gen_entry cat inputs n_jobs q).1 =
          job_names (pool_gen_entry cat inputs n_jobs q).1 from rfl,
        pool_gen_entry_names cat inputs n_jobs q pool hfp hnq]
      by_cases hp : pool.eos_path.isSome = true
      · rw [if_pos hp]; exact List.nodup_nil
      · rw [if_neg hp]
        exact (List.nodup_range' 0 _).map
          (fun a b hab => by injection hab)
    · exact ih hndrest (fun r hr => hall r (List.mem_cons_of_mem q hr))
    · intro nm hnm hnm2
      rw [show List.filterMap jobNameOf (pool_gen_entry cat inputs n_jobs q).1 =
          job_names (pool_gen_entry cat inputs n_jobs q).1 from rfl,
        pool_gen_entry_names cat inputs n_jobs q pool hfp hnq] at hnm
      by_cases hp : pool.eos_path.isSome = true
      · rw [if_pos hp] at hnm; cases hnm
      · rw [if_neg hp] at hnm
        obtain ⟨i, _, hi⟩ := List.mem_map.mp hnm
        obtain ⟨q2, hq2, i2, hi2⟩ := gen_stage_names_shape cat inputs n_jobs
          rest (fun r hr => hall r (List.mem_cons_of_mem q hr)) nm hnm2
        rw [← hi] at hi2
        injection hi2 with hq2eq _
        rw [← hq2eq] at hq2
        exact hqrest hq2

theorem proc_lines_spec_job_names (cat : Catalog) (c : Campaign) :
    ∀ js : List Nat,
    job_names (proc_lines_spec cat c js) = js.map (JobName.proc c.name) := by
  intro js
  induction js with
  | nil => rfl
  | cons j rest ih =>
    simp only [proc_lines_spec, job_names, List.filterMap_append, List.map_cons]
    by_cases hemp : (parents_spec cat c.inputs j).isEmpty <;>
      simp only [add_processing_job, hemp, if_pos, if_neg] <;>
      simp [jobNameOf, job_names] at ih ⊢ <;>
      exact ih

/-! ## Claim theorems, part 1 -/

/-- C1: for a fixed occurrence position u of pool p (u < usage_count(p)),
the indices `lheJobIdx` assigned across processing jobs j = 0..N-1 are
duplicate-free and disjoint from those of every other occurrence position,
and the union over all occurrence positions is exactly
`0 .. usage_count(p)*N - 1`. -/
theorem c1_index_bijection (inputs : List String) (p : String) (N : Nat) :
    (∀ j j' u u', j < N → j' < N →
      u < inputs.count p → u' < inputs.count p →
      (lheJobIdx inputs p j u = lheJobIdx inputs p j' u' ↔ (j = j' ∧ u = u'))) ∧
    ((Finset.range (inputs.count p)).biUnion
        (fun u => (Finset.range N).image (fun j => lheJobIdx inputs p j u)) =
      Finset.range (inputs.count p * N)) := by
  set m := inputs.count p with hm
  constructor
  · intro j j' u u' _ _ hu hu'
    constructor
    · intro h
      simp only [lheJobIdx, ← hm] at h
      have hmpos : 0 < m := by omega
      have h1 : (j * m + u) % m = u := by
        rw [Nat.add_comm, Nat.add_mul_mod_self_right]
        exact Nat.mod_eq_of_lt hu
      have h2 : (j' * m + u') % m = u' := by
        rw [Nat.add_comm, Nat.add_mul_mod_self_right]
        exact Nat.mod_eq_of_lt hu'
      have huu : u = u' := by rw [← h1, ← h2, h]
      refine ⟨?_, huu⟩
      have : j * m = j' * m := by omega
      exact Nat.eq_of_mul_eq_mul_right hmpos this
    · rintro ⟨rfl, rfl⟩; rfl
  · ext k
    simp only [Finset.mem_biUnion, Finset.mem_image, Finset.mem_range, lheJobIdx, ← hm]
    constructor
    · rintro ⟨u, hu, j, hj, rfl⟩
      calc j * m + u < (j + 1) * m := by rw [Nat.succ_mul]; omega
        _ ≤ N * m := Nat.mul_le_mul_right m (by omega)
        _ = m * N := Nat.mul_comm N m
    · intro hk
      have hmpos : 0 < m := by
        by_contra hc
        have hm0 : m = 0 := by omega
        rw [hm0, Nat.zero_mul] at hk
        omega
      have hk2 : k < N * m := Nat.mul_comm m N ▸ hk
      refine ⟨k % m, Nat.mod_lt _ hmpos, k / m, ?_, ?_⟩
      · rw [Nat.div_lt_iff_lt_mul hmpos]; omega
      · have hdm := Nat.div_add_mod k m
        have hcm : k / m * m = m * (k / m) := Nat.mul_comm _ _
        omega

/-- C1 witness: the bijection at the concrete campaign inputs
[A, A, B], pool A, N = 3. -/
theorem c1_index_bijection_witness :
    (lheJobIdx ["A", "A", "B"] "A" 2 1 = lheJobIdx ["A", "A", "B"] "A" 2 1 ↔
      ((2 : Nat) = 2 ∧ (1 : Nat) = 1)) ∧
    ((Finset.range (["A", "A", "B"].count "A")).biUnion
        (fun u => (Finset.range 3).image
          (fun j => lheJobIdx ["A", "A", "B"] "A" j u)) =
      Finset.range (["A", "A", "B"].count "A" * 3)) :=
  ⟨(c1_index_bijection ["A", "A", "B"] "A" 3).1 2 2 1 1
      (by decide) (by decide) (by decide) (by decide),
   (c1_index_bijection ["A", "A", "B"] "A" 3).2⟩

/-- C6: if the credential check fails, `scan_existing_pools` returns the
empty mapping no matter what the per-pool remote counts are; otherwise a
pool is in the returned mapping, with its EOS location, exactly when its
remote count reaches the threshold. -/
theorem c6_scan_pools (remote_count : String → Nat)
    (pools : List String) (min_files : Nat) :
    (scan_existing_pools false remote_count pools min_files = []) ∧
    (∀ p loc,
      (p, loc) ∈ scan_existing_pools true remote_count pools min_files ↔
        (p ∈ pools ∧ min_files ≤ remote_count p ∧ loc = poolEosLocation p)) := by
  constructor
  · simp [scan_existing_pools]
  · intro p loc
    rw [show scan_existing_pools true remote_count pools min_files =
        pools.filterMap (fun q =>
          if min_files ≤ remote_count q then some (q, poolEosLocation q)
          else none) from by simp [scan_existing_pools]]
    rw [List.mem_filterMap]
    constructor
    · rintro ⟨a, ha, hf⟩
      by_cases h : min_files ≤ remote_count a
      · rw [if_pos h] at hf
        simp only [Option.some.injEq, Prod.mk.injEq] at hf
        obtain ⟨rfl, rfl⟩ := hf
        exact ⟨ha, h, rfl⟩
      · rw [if_neg h] at hf
        cases hf
    · rintro ⟨hp, hc, rfl⟩
      exact ⟨p, hp, by rw [if_pos hc]⟩

/-- C7: campaign construction validates that the modes and inputs lists
have equal length, failing with a ValueError otherwise: a constructed
campaign always satisfies the invariant. -/
theorem c7_campaign_validation (name analysis : String)
    (inputs modes : List String) (description : String) (deprecated : Bool) :
    ((mkCampaign name analysis inputs modes description deprecated).isOk ↔
      modes.length = inputs.length) ∧
    (∀ c, mkCampaign name analysis inputs modes description deprecated = .ok c →
      c.modes.length = c.inputs.length) := by
  constructor
  · by_cases h : modes.length = inputs.length <;>
      simp [mkCampaign, h, Except.isOk, Except.toBool]
  · intro c hc
    by_cases h : modes.length = inputs.length
    · simp only [mkCampaign, if_neg (by omega : ¬ modes.length ≠ inputs.length),
        Except.ok.injEq] at hc
      rw [← hc]
      exact h
    · simp [mkCampaign, h] at hc

/-- C7 witness: the valid campaign JJP_SPS is constructed and satisfies
the invariant. -/
theorem c7_campaign_validation_witness :
    (Campaign.modes ⟨"JJP_SPS", "JJP", ["pool_2jpsi_g"], ["phi"],
        "JJP SPS: gg -> 2J/psi + g with forced Phi shower", false⟩).length =
      (Campaign.inputs ⟨"JJP_SPS", "JJP", ["pool_2jpsi_g"], ["phi"],
        "JJP SPS: gg -> 2J/psi + g with forced Phi shower", false⟩).length :=
  (c7_campaign_validation "JJP_SPS" "JJP" ["pool_2jpsi_g"] ["phi"]
      "JJP SPS: gg -> 2J/psi + g with forced Phi shower" false).2
    ⟨"JJP_SPS", "JJP", ["pool_2jpsi_g"], ["phi"],
      "JJP SPS: gg -> 2J/psi + g with forced Phi shower", false⟩
    (by simp [mkCampaign])

/-- C9: the planner is a pure function of (campaign, catalog-state,
multiplicity): the lines `generate_campaign_dag` appends are a function of
those arguments alone, independent of the pre-existing line buffer, and the
full-document planner emits exactly the same non-comment directives (job
nodes, parameters, retries, edges, in the same order) regardless of the
wall-clock timestamp interpolated into the header comment. -/
theorem c9_planner_pure :
    (∀ (cat : Catalog) (c : Campaign) (n_jobs : Nat) (u : Bool)
        (acc : List DagLine),
      generate_campaign_dag cat c n_jobs u acc =
        (acc ++ (generate_campaign_dag cat c n_jobs u []).1,
         (generate_campaign_dag cat c n_jobs u []).2)) ∧
    (∀ (cat : Catalog) (campaigns : List (String × Campaign))
        (names : List String) (n_jobs : Nat) (now now' : String),
      graph_lines (generate_full_dag cat campaigns names n_jobs now).1 =
        graph_lines (generate_full_dag cat campaigns names n_jobs now').1 ∧
      (generate_full_dag cat campaigns names n_jobs now).2 =
        (generate_full_dag cat campaigns names n_jobs now').2) := by
  refine ⟨generate_campaign_dag_frame, ?_⟩
  intro cat campaigns names n_jobs now now'
  constructor
  · simp only [generate_full_dag]
    rw [full_dag_loop_fst cat campaigns n_jobs names
        (full_dag_header names n_jobs now) [],
      full_dag_loop_fst cat campaigns n_jobs names
        (full_dag_header names n_jobs now') []]
    simp only [graph_lines, List.filter_append]
    simp [full_dag_header, isComment]
  · simp only [generate_full_dag]
    rw [full_dag_loop_snd cat campaigns n_jobs names
        (full_dag_header names n_jobs now) [],
      full_dag_loop_snd cat campaigns n_jobs names
        (full_dag_header names n_jobs now') []]

/-- C2: for every campaign and multiplicity N the planner emits exactly N
processing JOB directives; job j consumes exactly one resource unit per
positional input (`refs_spec`, whose entry at position i holding pool p as
occurrence u is EOS:p:j:u when p is pre-staged and GEN:p:(j*usage+u)
otherwise), gains one dependency edge per non-pre-staged occurrence, to the
generation job of the consumed unit (`parents_spec`), and gains no PARENT
directive at all when every occurrence is pre-staged. -/
theorem c2_processing_consumption (cat : Catalog) (c : Campaign)
    (n_jobs j : Nat)
    (hok : ∀ q ∈ c.inputs, pool_ok cat q = true) (hj : j < n_jobs) :
    ((generate_campaign_dag cat c n_jobs true []).1.countP isProcJobLine =
      n_jobs) ∧
    (DagLine.vars_proc (JobName.proc c.name j) c.name j
        (refs_spec cat c.inputs j) c.modes c.analysis_type c.n_sources ∈
      (generate_campaign_dag cat c n_jobs true []).1) ∧
    ((refs_spec cat c.inputs j).length = c.inputs.length) ∧
    (parents_spec cat c.inputs j ≠ [] →
      DagLine.parent (parents_spec cat c.inputs j) (JobName.proc c.name j) ∈
        (generate_campaign_dag cat c n_jobs true []).1) ∧
    (parents_spec cat c.inputs j = [] →
      ∀ ps, DagLine.parent ps (JobName.proc c.name j) ∉
        (generate_campaign_dag cat c n_jobs true []).1) := by
  rw [generate_campaign_dag_ok cat c n_jobs true [] hok]
  simp only [List.nil_append]
  refine ⟨?_, ?_, refs_spec_length cat c.inputs j, ?_, ?_⟩
  · simp only [campaign_lines_spec, List.countP_append]
    rw [campaign_header_counts c isProcJobLine (fun t => rfl),
      (gen_stage_lines_spec_counts cat c.inputs n_jobs (dedupFirst c.inputs)).1,
      proc_lines_spec_proc_count]
    simp
  · have hblock : DagLine.vars_proc (JobName.proc c.name j) c.name j
        (refs_spec cat c.inputs j) c.modes c.analysis_type c.n_sources ∈
        (add_processing_job c j (refs_spec cat c.inputs j)
          (parents_spec cat c.inputs j)).1 := by
      simp [add_processing_job]
    have hmem := proc_block_subset cat c j (List.range n_jobs)
      (List.mem_range.mpr hj) _ hblock
    exact List.mem_append.mpr (Or.inr hmem)
  · intro hne
    have hblock : DagLine.parent (parents_spec cat c.inputs j)
        (JobName.proc c.name j) ∈
        (add_processing_job c j (refs_spec cat c.inputs j)
          (parents_spec cat c.inputs j)).1 := by
      simp only [add_processing_job]
      refine List.mem_append.mpr (Or.inr ?_)
      rw [if_neg (fun h => hne (List.isEmpty_iff.mp h))]
      exact List.mem_singleton.mpr rfl
    have hmem := proc_block_subset cat c j (List.range n_jobs)
      (List.mem_range.mpr hj) _ hblock
    exact List.mem_append.mpr (Or.inr hmem)
  · intro hemp ps hmem
    rcases List.mem_append.mp hmem with hmem2 | hmem2
    · rcases List.mem_append.mp hmem2 with hmem3 | hmem3
      · have := (List.countP_eq_zero.mp
          (campaign_header_counts c isParentLine (fun t => rfl))) _ hmem3
        simp [isParentLine] at this
      · have := (List.countP_eq_zero.mp
          (gen_stage_lines_spec_counts cat c.inputs n_jobs
            (dedupFirst c.inputs)).2.1) _ hmem3
        simp [isParentLine] at this
    · obtain ⟨j2, hj2, heq, hne⟩ := parent_line_char cat c (List.range n_jobs)
        _ hmem2 rfl
      injection heq with h1 h2
      injection h2 with h3 h4
      subst h4
      exact hne hemp

/-- C2 witness: the spec scenario campaign [A, A, B] with N = 3 at
processing job j = 1; additionally the consumed references and edges are
evaluated concretely: A-units 2 and 2*1+1 = 3, pre-staged B resolved as
EOS:B:1:0. -/
theorem c2_processing_consumption_witness :
    (((generate_campaign_dag testCat campAAB 3 true []).1.countP
        isProcJobLine = 3) ∧
      (DagLine.vars_proc (JobName.proc campAAB.name 1) campAAB.name 1
          (refs_spec testCat campAAB.inputs 1) campAAB.modes
          campAAB.analysis_type campAAB.n_sources ∈
        (generate_campaign_dag testCat campAAB 3 true []).1) ∧
      ((refs_spec testCat campAAB.inputs 1).length =
        campAAB.inputs.length) ∧
      (parents_spec testCat campAAB.inputs 1 ≠ [] →
        DagLine.parent (parents_spec testCat campAAB.inputs 1)
            (JobName.proc campAAB.name 1) ∈
          (generate_campaign_dag testCat campAAB 3 true []).1) ∧
      (parents_spec testCat campAAB.inputs 1 = [] →
        ∀ ps, DagLine.parent ps (JobName.proc campAAB.name 1) ∉
          (generate_campaign_dag testCat campAAB 3 true []).1)) ∧
    refs_spec testCat campAAB.inputs 1 =
      [FileRef.gen "A" 2, FileRef.gen "A" 3, FileRef.eos "B" 1 0] ∧
    parents_spec testCat campAAB.inputs 1 =
      [JobName.lhe "A" 2, JobName.lhe "A" 3] :=
  ⟨c2_processing_consumption testCat campAAB 3 1 (by decide) (by decide),
   by decide, by decide⟩

/-- C3: generation jobs are created once per distinct pool name, never per
occurrence: a pool p without a pre-staged location gets exactly
usage_count(p)*N generation JOB directives, a pre-staged pool gets 0. -/
theorem c3_generation_dedup (cat : Catalog) (c : Campaign) (n_jobs : Nat)
    (p : String) (pool : LHEPool)
    (hok : ∀ q ∈ c.inputs, pool_ok cat q = true)
    (hp : p ∈ c.inputs) (hfind : findPool cat p = some pool) :
    (generate_campaign_dag cat c n_jobs true []).1.countP (isGenJobFor p) =
      if pool.eos_path.isSome then 0 else c.inputs.count p * n_jobs := by
  rw [generate_campaign_dag_ok cat c n_jobs true [] hok]
  simp only [List.nil_append, campaign_lines_spec, List.countP_append]
  rw [campaign_header_counts c (isGenJobFor p) (fun t => rfl),
    gen_stage_lines_spec_gen_count cat c.inputs n_jobs p pool hfind
      (dedupFirst c.inputs) (nodup_dedupFirst _)
      (fun q hq => hok q ((mem_dedupFirst _ _).mp hq)),
    proc_lines_spec_gen_count]
  rw [if_pos ((mem_dedupFirst _ _).mpr hp)]
  cases pool.eos_path.isSome <;> simp [Nat.mul_comm]

/-- C3 witness: in the scenario campaign [A, A, B] with N = 3, pool A
(not pre-staged, usage 2) gets 6 generation jobs; pool B (pre-staged)
gets 0. -/
theorem c3_generation_dedup_witness :
    ((generate_campaign_dag testCat campAAB 3 true []).1.countP
        (isGenJobFor "A") = 6) ∧
    ((generate_campaign_dag testCat campAAB 3 true []).1.countP
        (isGenJobFor "B") = 0) := by
  have hA := c3_generation_dedup testCat campAAB 3 "A" poolA
    (by decide) (by decide) (by decide)
  have hB := c3_generation_dedup testCat campAAB 3 "B" poolB
    (by decide) (by decide) (by decide)
  constructor
  · rw [hA]; decide
  · rw [hB]; decide

/-- C4 counterexample: a campaign whose inputs name the known,
non-pre-staged pool A before the unregistered name Zmissing: planning
fails with the lookup error, but a generation JOB directive for A has
already been emitted into the line buffer, so the failure is not before
every JOB directive of the campaign. -/
theorem c4_counterexample :
    ((generate_campaign_dag testCat campUnknown 1 true []).1.countP
        isJobDirective ≠ 0) ∧
    (generate_campaign_dag testCat campUnknown 1 true []).2 =
      .error (PlanError.unknownPool "Zmissing") := by
  constructor
  · decide
  · rfl

/-- C4 (amended): referencing an unregistered pool name makes planning of
that campaign fail with a lookup error before any processing JOB directive
is emitted; generation JOB directives for known pools scanned before the
unknown name may already have been appended. -/
theorem c4_unknown_pool_fails (cat : Catalog) (c : Campaign) (n_jobs : Nat)
    (u : Bool) (hbad : ∃ p ∈ c.inputs, findPool cat p = none) :
    (∃ e, (generate_campaign_dag cat c n_jobs u []).2 = .error e) ∧
    (generate_campaign_dag cat c n_jobs u []).1.countP isProcJobLine = 0 := by
  obtain ⟨p, hp, hnone⟩ := hbad
  obtain ⟨e, he⟩ := gen_stage_error cat u c.inputs n_jobs (dedupFirst c.inputs)
    ⟨p, (mem_dedupFirst _ _).mpr hp, hnone⟩
  constructor
  · refine ⟨e, ?_⟩
    simp only [generate_campaign_dag]
    rw [gen_stage_snd, he]
  · simp only [generate_campaign_dag]
    rw [gen_stage_snd, he]
    show (gen_stage cat u c.inputs n_jobs (dedupFirst c.inputs)
      ([] ++ campaign_header c)).1.countP isProcJobLine = 0
    rw [gen_stage_fst, List.nil_append, List.countP_append,
      campaign_header_counts c isProcJobLine (fun t => rfl),
      gen_stage_nil_proc_count]

/-- C4 witness for the amended statement, at the concrete campaign with an
unregistered pool. -/
theorem c4_unknown_pool_fails_witness :
    (∃ e, (generate_campaign_dag testCat campUnknown 2 true []).2 =
      .error e) ∧
    (generate_campaign_dag testCat campUnknown 2 true []).1.countP
      isProcJobLine = 0 :=
  c4_unknown_pool_fails testCat campUnknown 2 true (by decide)

/-- C5 counterexample: with the real registries and N = 0 the emitted
document contains no FINAL directive at all — the summary node is guarded
by `if all_jobs:` and all_jobs is empty — refuting the claim that the
document still contains at least the trailing FINAL directive. -/
theorem c5_counterexample :
    (generate_full_dag LHE_POOLS CAMPAIGNS ["JJP_SPS"] 0
      "2024-06-01T00:00:00").1.countP isFinalDirective = 0 := by
  rfl

/-- C5 (amended): N = 0 is legal: the planner emits zero generation and
zero processing JOB directives, the document still contains the CONFIG
directive of the header, but the trailing FINAL summary directive is
omitted (it is emitted only when at least one processing job exists). -/
theorem c5_zero_multiplicity (cat : Catalog)
    (campaigns : List (String × Campaign)) (names : List String)
    (now : String) :
    ((generate_full_dag cat campaigns names 0 now).1.countP
        isJobDirective = 0) ∧
    ((generate_full_dag cat campaigns names 0 now).1.countP
        isFinalDirective = 0) ∧
    DagLine.config "dagman.config" ∈
      (generate_full_dag cat campaigns names 0 now).1 := by
  have hdrj : (full_dag_header names 0 now).countP isJobDirective = 0 := by
    simp [full_dag_header, isJobDirective]
  have hdrf : (full_dag_header names 0 now).countP isFinalDirective = 0 := by
    simp [full_dag_header, isFinalDirective]
  obtain ⟨h1, h2⟩ := full_dag_loop_zero cat campaigns names
    (full_dag_header names 0 now) hdrj hdrf
  simp only [generate_full_dag]
  refine ⟨h1, h2, ?_⟩
  rw [full_dag_loop_fst]
  exact List.mem_append_left _ (by simp [full_dag_header])

/-- C8 counterexample: two campaigns X and Y planned in one invocation
both use the non-pre-staged pool A; each campaign emits its own generation
job named LHE_A_0, so the full document declares the same job name twice. -/
theorem c8_counterexample :
    ¬ ((job_names (generate_full_dag testCat testCampaigns ["X", "Y"] 1
        "2024-06-01T00:00:00").1).map renderName).Nodup := by
  decide

/-- C8 (amended): within the DAG emitted for a single campaign, every JOB
directive declares a unique name (generation names LHE_pool_i are pairwise
distinct across pools and indices, processing names PROC_campaign_j are
pairwise distinct, and the two families never collide — as rendered
strings, via injectivity of the name rendering).  Across multiple
campaigns, a shared non-pre-staged pool is re-generated per campaign under
identical names, so uniqueness can fail (see the counterexample). -/
theorem c8_unique_names_single_campaign (cat : Catalog) (c : Campaign)
    (n_jobs : Nat) (hok : ∀ q ∈ c.inputs, pool_ok cat q = true) :
    ((job_names (generate_campaign_dag cat c n_jobs true []).1).map
      renderName).Nodup := by
  rw [generate_campaign_dag_ok cat c n_jobs true [] hok]
  apply List.Nodup.map renderName_injective
  simp only [List.nil_append]
  have hsplit : job_names (campaign_lines_spec cat c n_jobs) =
      job_names (campaign_header c) ++
      job_names (gen_stage_lines_spec cat c.inputs n_jobs
        (dedupFirst c.inputs)) ++
      job_names (proc_lines_spec cat c (List.range n_jobs)) := by
    simp [campaign_lines_spec, job_names, List.filterMap_append]
  rw [hsplit, campaign_header_names, List.nil_append,
    proc_lines_spec_job_names, List.nodup_append]
  refine ⟨gen_stage_names_nodup cat c.inputs n_jobs (dedupFirst c.inputs)
      (nodup_dedupFirst _) (fun q hq => hok q ((mem_dedupFirst _ _).mp hq)),
    ?_, ?_⟩
  · exact (List.nodup_range n_jobs).map (fun a b hab => by injection hab)
  · intro nm hnm hnm2
    obtain ⟨q, _, i, hi⟩ := gen_stage_names_shape cat c.inputs n_jobs
      (dedupFirst c.inputs)
      (fun r hr => hok r ((mem_dedupFirst _ _).mp hr)) nm hnm
    obtain ⟨j, _, hj⟩ := List.mem_map.mp hnm2
    rw [hi] at hj
    exact JobName.noConfusion hj

/-- C8 witness for the amended statement: the scenario campaign [A, A, B]
with N = 3 has all its rendered job names distinct. -/
theorem c8_unique_names_single_campaign_witness :
    ((job_names (generate_campaign_dag testCat campAAB 3 true []).1).map
      renderName).Nodup :=
  c8_unique_names_single_campaign testCat campAAB 3 (by decide)

/-- C10: `generate_campaign_dag` emits exactly the same lines and result
whether `use_existing_lhe` is true or false, for every catalog, campaign,
multiplicity and prior line buffer: `add_lhe_generation_jobs` itself skips
pre-staged pools and the processing stage tests `eos_path` directly. -/
theorem c10_flag_irrelevant (cat : Catalog) (c : Campaign) (n_jobs : Nat)
    (acc : List DagLine) :
    generate_campaign_dag cat c n_jobs true acc =
      generate_campaign_dag cat c n_jobs false acc := by
  unfold generate_campaign_dag
  rw [gen_stage_flag]

end MCProd
